import Mathlib

/-!
Shallow embedding of the backpressure buffer (`StreamController`, from
`src/unnamed/part_002`, i.e. `stream_controller.js`) and of the resilient
session wrapper (`RecognizerWrapper`, from `src/backend/recognizer.js`).

Buffers are modelled as lists of bytes (`List Nat`); the JavaScript `push`
argument, which may be `null`, `undefined` or a non-Buffer value, is
modelled by the inductive `JsVal`.  Each call to `pushStream.write` is
modelled by consulting an oracle `Nat → WRes` at the current write index:
the write may return `true` (`ok`), return `false` (backpressure,
`notOk`), or throw (`err`).  Ghost fields (`pushed`, `written`, `events`)
record the observable history: all bytes accepted by `push`, all bytes
handed to the sink's `write`, and the emitted `high`/`ok` flow-control
events, each in order.
-/

/-- Outcome of one call to `pushStream.write(chunk)`:
`ok` = returned `true`, `notOk` = returned `false` (backpressure),
`err` = threw an exception. -/
inductive WRes
  | ok
  | notOk
  | err
deriving DecidableEq, Repr

/-- A Buffer is an ordered sequence of bytes. -/
abbrev Chunk := List Nat

/-- A JavaScript value passed to `push`: a Buffer, `null`, `undefined`,
or some other non-Buffer value. -/
inductive JsVal
  | buffer (bytes : Chunk)
  | nullv
  | undef
  | other
deriving DecidableEq

/-- The guard `chunk && Buffer.isBuffer(chunk)` of `push` (line 44):
only a Buffer (possibly empty — an empty Buffer object is truthy) passes. -/
def toBuffer : JsVal → Option Chunk
  | .buffer b => some b
  | _ => none

/-- A flow-control event emitted by the controller: `high` or `ok`. -/
inductive Ev
  | high
  | okEv
deriving DecidableEq, Repr

/-- Configuration of a `StreamController` (constructor lines 8-13). -/
structure Cfg where
  maxBufferBytes : Nat
  highWaterBytes : Nat
  resumeWaterBytes : Nat
  batchBytes : Nat
deriving DecidableEq

/-- The default configuration at `rate = 16000`:
`maxBufferBytes = 16000 * 2 * 2 = 64000`, `highWaterBytes = ⌊64000 * 0.9⌋ =
57600`, `resumeWaterBytes = ⌊64000 * 0.3⌋ = 19200`, `batchBytes = 64 * 1024`. -/
def Cfg.default : Cfg :=
  { maxBufferBytes := 64000
    highWaterBytes := 57600
    resumeWaterBytes := 19200
    batchBytes := 65536 }

/-- State of a `StreamController`.  `sink` models `this.pushStream`
(identified by a numeric id, `none` when no stream is attached);
`paused` is `_pausedByBackpressure`; `highEmitted` is `_highEmitted`
(initially `undefined`, i.e. falsy); `timerActive` records whether the
50 ms drain interval is still scheduled; `writeIdx` counts the write
calls made so far (the oracle index).  `pushed`, `written` and `events`
are ghost observation logs. -/
structure St where
  sink : Option Nat
  queue : List Chunk
  totalQueued : Nat
  lostBytes : Nat
  sentBytes : Nat
  paused : Bool
  highEmitted : Bool
  timerActive : Bool
  writeIdx : Nat
  pushed : List Nat
  written : List Nat
  events : List Ev
deriving DecidableEq

/-- The state right after the constructor runs (lines 15-25). -/
def St.init : St :=
  { sink := none
    queue := []
    totalQueued := 0
    lostBytes := 0
    sentBytes := 0
    paused := false
    highEmitted := false
    timerActive := true
    writeIdx := 0
    pushed := []
    written := []
    events := [] }

/-- Total byte length of a queue of chunks. -/
def sumLen (q : List Chunk) : Nat := (q.map List.length).sum

/-- The overflow eviction loop of `push` (lines 61-68):
`while (queue.length && totalQueued > maxBufferBytes) { shift; adjust }`.
Returns the new queue, `totalQueued` and `lostBytes`. -/
def evictLoop (cfg : Cfg) : List Chunk → Nat → Nat → List Chunk × Nat × Nat
  | [], tq, lost => ([], tq, lost)
  | c :: rest, tq, lost =>
    if cfg.maxBufferBytes < tq then
      evictLoop cfg rest (tq - c.length) (lost + c.length)
    else (c :: rest, tq, lost)

/-- The latch-clearing check shared by the two exits of `_tryDrain`
(lines 85-88 and 117-120): if `_highEmitted` is set and
`totalQueued <= resumeWaterBytes`, clear it and emit `ok`. -/
def emitOkIfLow (cfg : Cfg) (s : St) : St :=
  if s.highEmitted = true ∧ s.totalQueued ≤ cfg.resumeWaterBytes then
    { s with highEmitted := false, events := s.events ++ [Ev.okEv] }
  else s

/-- The batched write loop of `_tryDrain` (lines 94-114).  `btt` is
`bytesThisTick`.  One iteration: take `min(head.length, batch - btt)`
bytes from the head chunk, call `write`; on a throw break with nothing
changed; otherwise record the sent bytes, shift or split the head, and
on `write` returning `false` set the backpressure flag and break.
The loop runs at most `queue.length + 1` iterations (a split forces
`btt = batchBytes`, ending the loop), so that much fuel is exact. -/
def drainLoop (cfg : Cfg) (oracle : Nat → WRes) : Nat → Nat → St → St
  | 0, _, s => s
  | fuel + 1, btt, s =>
    match s.queue with
    | [] => s
    | buf :: rest =>
      if btt < cfg.batchBytes then
        let take := min buf.length (cfg.batchBytes - btt)
        let chunk := buf.take take
        match oracle s.writeIdx with
        | .err => { s with writeIdx := s.writeIdx + 1 }
        | .ok =>
          drainLoop cfg oracle fuel (btt + take)
            { s with
              writeIdx := s.writeIdx + 1
              written := s.written ++ chunk
              sentBytes := s.sentBytes + take
              totalQueued := s.totalQueued - take
              queue := if take = buf.length then rest else buf.drop take :: rest }
        | .notOk =>
          { s with
            writeIdx := s.writeIdx + 1
            written := s.written ++ chunk
            sentBytes := s.sentBytes + take
            totalQueued := s.totalQueued - take
            queue := if take = buf.length then rest else buf.drop take :: rest
            paused := true }
      else s

/-- `_tryDrain` (lines 81-123).  The `_writing` reentrancy guard is the
identity in this sequential model.  With no `pushStream` it returns at
line 83 before any latch check; with an empty queue it only runs the
latch-clearing check; otherwise it runs the batched write loop and then
the latch-clearing check. -/
def tryDrain (cfg : Cfg) (oracle : Nat → WRes) (s : St) : St :=
  match s.sink with
  | none => s
  | some _ =>
    match s.queue with
    | [] => emitOkIfLow cfg s
    | _ :: _ => emitOkIfLow cfg (drainLoop cfg oracle (s.queue.length + 1) 0 s)

/-- The slow path of `push` (lines 58-78), applied to an already accepted
Buffer `bytes`: enqueue, evict on overflow, set the latch and emit `high`
on crossing the high watermark, then `_tryDrain`.  (The ghost `pushed`
log is appended by `pushOp`, which dispatches here.) -/
def pushSlow (cfg : Cfg) (oracle : Nat → WRes) (bytes : Chunk) (s : St) : St :=
  let q1 := s.queue ++ [bytes]
  let tq1 := s.totalQueued + bytes.length
  let e := evictLoop cfg q1 tq1 s.lostBytes
  let s2 : St := { s with queue := e.1, totalQueued := e.2.1, lostBytes := e.2.2 }
  let s3 : St :=
    if cfg.highWaterBytes ≤ s2.totalQueued ∧ s2.highEmitted = false then
      { s2 with highEmitted := true, events := s2.events ++ [Ev.high] }
    else s2
  tryDrain cfg oracle s3

/-- `push(chunk)` (lines 43-79).  A non-Buffer argument returns
immediately.  The fast path (queue empty, stream attached, not paused by
backpressure) writes directly: on success it records the bytes and
returns (setting the backpressure flag when `write` returned `false`);
on a throw it falls through to the slow path. -/
def pushOp (cfg : Cfg) (oracle : Nat → WRes) (v : JsVal) (s : St) : St :=
  match toBuffer v with
  | none => s
  | some bytes =>
    let s0 : St := { s with pushed := s.pushed ++ bytes }
    if s0.queue = [] ∧ s0.sink.isSome = true ∧ s0.paused = false then
      match oracle s0.writeIdx with
      | .err => pushSlow cfg oracle bytes { s0 with writeIdx := s0.writeIdx + 1 }
      | .ok =>
        { s0 with
          writeIdx := s0.writeIdx + 1
          written := s0.written ++ bytes
          sentBytes := s0.sentBytes + bytes.length }
      | .notOk =>
        { s0 with
          writeIdx := s0.writeIdx + 1
          written := s0.written ++ bytes
          sentBytes := s0.sentBytes + bytes.length
          paused := true }
    else pushSlow cfg oracle bytes s0

/-- `attachStream(stream)` (lines 28-36): unsubscribe the old stream's
drain listener, store the new stream, subscribe to its drain event.
Only the `pushStream` reference changes. -/
def attachStream (sk : Option Nat) (s : St) : St := { s with sink := sk }

/-- `_onDrain` (lines 38-41): clear the backpressure flag, then drain. -/
def onDrain (cfg : Cfg) (oracle : Nat → WRes) (s : St) : St :=
  tryDrain cfg oracle { s with paused := false }

/-- One firing of the 50 ms drain interval (line 25); after `stop()` the
interval is cleared and no longer fires. -/
def tickOp (cfg : Cfg) (oracle : Nat → WRes) (s : St) : St :=
  if s.timerActive = true then tryDrain cfg oracle s else s

/-- `stop()` (lines 136-138): `clearInterval(this._drainTimer)`. -/
def stopOp (s : St) : St := { s with timerActive := false }

/-- An externally triggered operation on the controller. -/
inductive Op
  | push (v : JsVal)
  | tick
  | drainEvt
  | attach (sk : Option Nat)
  | stop

/-- Dispatch one operation. -/
def step (cfg : Cfg) (oracle : Nat → WRes) : Op → St → St
  | .push v => pushOp cfg oracle v
  | .tick => tickOp cfg oracle
  | .drainEvt => onDrain cfg oracle
  | .attach sk => attachStream sk
  | .stop => stopOp

/-- Run a sequence of operations from a state. -/
def run (cfg : Cfg) (oracle : Nat → WRes) (ops : List Op) (s : St) : St :=
  ops.foldl (fun t op => step cfg oracle op t) s

/-! ## The resilient session (`RecognizerWrapper`, `src/backend/recognizer.js`) -/

/-- Abstract state of a `RecognizerWrapper`: whether a recognition
session is currently running, how many restart timers scheduled by
`reconnect()` are still pending, and the `reconnects` attempt counter. -/
structure RecSt where
  running : Bool
  pendingStarts : Nat
  reconnects : Nat
deriving DecidableEq, Repr

/-- The backoff delay computed at line 170:
`Math.min(15000, 1000 * Math.pow(2, this.reconnects))`. -/
def reconnectDelay (n : Nat) : Nat := min 15000 (1000 * 2 ^ n)

/-- `start()` (lines 23-53): opens a fresh push stream and recognizer.
It never touches `this.reconnects`. -/
def recStart (s : RecSt) : RecSt := { s with running := true }

/-- `stop()` (lines 175-188): stops the recognizer and closes the push
stream.  It sets no guard flag and cancels no pending restart timer. -/
def recStop (s : RecSt) : RecSt := { s with running := false }

/-- `reconnect()` (lines 168-173): `stop()`, compute the delay from the
current `reconnects` value, post-increment `reconnects`, and schedule
`start()` unconditionally after the delay.  Returns the new state and
the scheduled delay in ms. -/
def recReconnect (s : RecSt) : RecSt × Nat :=
  ({ running := false, pendingStarts := s.pendingStarts + 1,
     reconnects := s.reconnects + 1 }, reconnectDelay s.reconnects)

/-- A pending restart timer fires: the `setTimeout(() => this.start(), delay)`
callback of line 172 calls `start()` unconditionally — no guard is checked. -/
def recTimerFire (s : RecSt) : RecSt :=
  match s.pendingStarts with
  | 0 => s
  | n + 1 => recStart { s with pendingStarts := n }

/-- The state of a freshly constructed wrapper (lines 17-20), after its
first `start()`. -/
def RecSt.started : RecSt := { running := true, pendingStarts := 0, reconnects := 0 }

/-- The state of the `k`-th consecutive failure-triggered reconnect
(`k` starting at 0) and the delay it schedules. -/
def kthReconnect (k : Nat) : RecSt × Nat :=
  recReconnect ((fun s => (recReconnect s).1)^[k] RecSt.started)

/-! ## Helper lemmas about the queue accounting -/

@[simp]
theorem sumLen_nil : sumLen [] = 0 := rfl

@[simp]
theorem sumLen_cons (c : Chunk) (q : List Chunk) :
    sumLen (c :: q) = c.length + sumLen q := by
  simp [sumLen]

@[simp]
theorem sumLen_append (q₁ q₂ : List Chunk) :
    sumLen (q₁ ++ q₂) = sumLen q₁ + sumLen q₂ := by
  simp [sumLen]

/-- Accounting of one run of the overflow eviction loop, assuming the
`totalQueued` counter it starts from is accurate: the counter stays
accurate, evicted bytes move from the counter to `lostBytes`,
`lostBytes` never shrinks, and if `lostBytes` did not grow then the
queued byte stream is untouched. -/
theorem evictLoop_spec (cfg : Cfg) :
    ∀ (q : List Chunk) (tq lost : Nat), tq = sumLen q →
      (evictLoop cfg q tq lost).2.1 = sumLen (evictLoop cfg q tq lost).1 ∧
      (evictLoop cfg q tq lost).2.2 + (evictLoop cfg q tq lost).2.1 = lost + tq ∧
      lost ≤ (evictLoop cfg q tq lost).2.2 ∧
      ((evictLoop cfg q tq lost).2.2 = lost →
        (evictLoop cfg q tq lost).1.flatten = q.flatten) := by
  intro q
  induction q with
  | nil =>
    intro tq lost h
    simp [evictLoop] at h ⊢
    omega
  | cons c rest ih =>
    intro tq lost h
    by_cases hovf : cfg.maxBufferBytes < tq
    · have h' : tq - c.length = sumLen rest := by
        simp [sumLen_cons] at h; omega
      have := ih (tq - c.length) (lost + c.length) h'
      simp only [evictLoop, if_pos hovf]
      refine ⟨this.1, ?_, ?_, ?_⟩
      · have := this.2.1
        simp [sumLen_cons] at h
        omega
      · have := this.2.2.1
        omega
      · intro hl
        have hc : c.length = 0 := by
          have := this.2.2.1
          omega
        have hcnil : c = [] := List.length_eq_zero.mp hc
        have hfl := this.2.2.2 (by omega)
        simp only [hcnil, List.length_nil, Nat.sub_zero, Nat.add_zero] at hfl ⊢
        simpa using hfl
    · simp only [evictLoop, if_neg hovf]
      exact ⟨h, trivial, le_refl _, fun _ => trivial⟩

/-- `lostBytes` never shrinks across the eviction loop (no accuracy
assumption on the counter needed). -/
theorem evictLoop_lost_mono (cfg : Cfg) :
    ∀ (q : List Chunk) (tq lost : Nat), lost ≤ (evictLoop cfg q tq lost).2.2 := by
  intro q
  induction q with
  | nil => intro tq lost; simp [evictLoop]
  | cons c rest ih =>
    intro tq lost
    by_cases hovf : cfg.maxBufferBytes < tq
    · simp only [evictLoop, if_pos hovf]
      exact le_trans (by omega) (ih (tq - c.length) (lost + c.length))
    · simp [evictLoop, if_neg hovf]

/-- Relations established by one successful write step of the drain loop:
writing `take` bytes taken from the head chunk (shifting the head when it
is fully consumed, otherwise splitting it) moves those bytes from the
queue to the written log without loss, duplication or reordering. -/
theorem writeStep_rel (s s₁ : St) (buf : Chunk) (rest : List Chunk) (take : Nat)
    (hq : s.queue = buf :: rest)
    (htake : take ≤ buf.length)
    (hw : s₁.written = s.written ++ buf.take take)
    (hqueue : s₁.queue = if take = buf.length then rest else buf.drop take :: rest)
    (htq : s₁.totalQueued = s.totalQueued - take) :
    s₁.written ++ s₁.queue.flatten = s.written ++ s.queue.flatten ∧
    s₁.written.length + sumLen s₁.queue = s.written.length + sumLen s.queue ∧
    (s.totalQueued = sumLen s.queue → s₁.totalQueued = sumLen s₁.queue) := by
  by_cases hfull : take = buf.length
  · rw [hw, hqueue, if_pos hfull, hfull, List.take_length]
    refine ⟨?_, ?_, ?_⟩
    · rw [hq, List.flatten_cons, List.append_assoc]
    · rw [hq]
      simp [sumLen_cons]
      omega
    · intro h
      rw [htq, h, hq, hw, hqueue, if_pos hfull] at *
      simp [sumLen_cons, hfull]
  · rw [hw, hqueue, if_neg hfull]
    refine ⟨?_, ?_, ?_⟩
    · rw [hq, List.flatten_cons, List.flatten_cons, List.append_assoc,
        ← List.append_assoc (buf.take take), List.take_append_drop]
    · rw [hq]
      simp [sumLen_cons, List.length_take, List.length_drop]
      omega
    · intro h
      rw [htq, h, hq]
      simp [sumLen_cons, List.length_drop]
      omega

/-- What the drain loop leaves untouched and what it preserves:
`pushed`, `lostBytes`, `events`, the latch, the sink and the timer never
change inside the loop; the concatenation of written bytes with the
still-queued bytes is invariant (no loss, duplication or reordering);
the byte accounting `written.length + sumLen queue` is invariant; and an
accurate `totalQueued` counter stays accurate. -/
theorem drainLoop_spec (cfg : Cfg) (oracle : Nat → WRes) :
    ∀ (fuel btt : Nat) (s : St),
      (drainLoop cfg oracle fuel btt s).pushed = s.pushed ∧
      (drainLoop cfg oracle fuel btt s).lostBytes = s.lostBytes ∧
      (drainLoop cfg oracle fuel btt s).events = s.events ∧
      (drainLoop cfg oracle fuel btt s).highEmitted = s.highEmitted ∧
      (drainLoop cfg oracle fuel btt s).sink = s.sink ∧
      (drainLoop cfg oracle fuel btt s).timerActive = s.timerActive ∧
      (drainLoop cfg oracle fuel btt s).written ++ (drainLoop cfg oracle fuel btt s).queue.flatten
        = s.written ++ s.queue.flatten ∧
      (drainLoop cfg oracle fuel btt s).written.length + sumLen (drainLoop cfg oracle fuel btt s).queue
        = s.written.length + sumLen s.queue ∧
      (s.totalQueued = sumLen s.queue →
        (drainLoop cfg oracle fuel btt s).totalQueued
          = sumLen (drainLoop cfg oracle fuel btt s).queue) := by
  intro fuel
  induction fuel with
  | zero =>
    intro btt s
    simp [drainLoop]
  | succ fuel ih =>
    intro btt s
    rcases hq : s.queue with _ | ⟨buf, rest⟩
    · simp [drainLoop, hq]
    · by_cases hbtt : btt < cfg.batchBytes
      · rcases horc : oracle s.writeIdx with _ | _ | _
        · -- write returned true: one step, then the rest of the loop
          have hstep := writeStep_rel s
            { s with
              writeIdx := s.writeIdx + 1
              written := s.written ++ buf.take (min buf.length (cfg.batchBytes - btt))
              sentBytes := s.sentBytes + min buf.length (cfg.batchBytes - btt)
              totalQueued := s.totalQueued - min buf.length (cfg.batchBytes - btt)
              queue := if min buf.length (cfg.batchBytes - btt) = buf.length then rest
                else buf.drop (min buf.length (cfg.batchBytes - btt)) :: rest }
            buf rest (min buf.length (cfg.batchBytes - btt)) hq (min_le_left _ _)
            rfl rfl rfl
          have hrec := ih (btt + min buf.length (cfg.batchBytes - btt))
            { s with
              writeIdx := s.writeIdx + 1
              written := s.written ++ buf.take (min buf.length (cfg.batchBytes - btt))
              sentBytes := s.sentBytes + min buf.length (cfg.batchBytes - btt)
              totalQueued := s.totalQueued - min buf.length (cfg.batchBytes - btt)
              queue := if min buf.length (cfg.batchBytes - btt) = buf.length then rest
                else buf.drop (min buf.length (cfg.batchBytes - btt)) :: rest }
          simp only [drainLoop, hq, if_pos hbtt, horc]
          rw [hq] at hstep
          simp only [min_eq_left_iff] at hstep hrec ⊢
          exact ⟨hrec.1, hrec.2.1, hrec.2.2.1, hrec.2.2.2.1, hrec.2.2.2.2.1,
            hrec.2.2.2.2.2.1,
            by rw [hrec.2.2.2.2.2.2.1]; exact hstep.1,
            by rw [hrec.2.2.2.2.2.2.2.1]; exact hstep.2.1,
            fun h => hrec.2.2.2.2.2.2.2.2 (hstep.2.2 h)⟩
        · -- write returned false: one step, backpressure, loop ends
          have hstep := writeStep_rel s
            { s with
              writeIdx := s.writeIdx + 1
              written := s.written ++ buf.take (min buf.length (cfg.batchBytes - btt))
              sentBytes := s.sentBytes + min buf.length (cfg.batchBytes - btt)
              totalQueued := s.totalQueued - min buf.length (cfg.batchBytes - btt)
              queue := if min buf.length (cfg.batchBytes - btt) = buf.length then rest
                else buf.drop (min buf.length (cfg.batchBytes - btt)) :: rest
              paused := true }
            buf rest (min buf.length (cfg.batchBytes - btt)) hq (min_le_left _ _)
            rfl rfl rfl
          simp only [drainLoop, hq, if_pos hbtt, horc]
          rw [hq] at hstep
          simp only [min_eq_left_iff] at hstep ⊢
          refine ⟨by trivial, by trivial, by trivial, by trivial, by trivial,
            by trivial, hstep.1, hstep.2.1, hstep.2.2⟩
        · -- write threw: loop breaks with nothing changed
          simp [drainLoop, hq, hbtt, horc]
      · simp [drainLoop, hq, hbtt]

/-- Fields of the state the latch-clearing check never touches. -/
theorem emitOkIfLow_fields (cfg : Cfg) (s : St) :
    (emitOkIfLow cfg s).queue = s.queue ∧
    (emitOkIfLow cfg s).totalQueued = s.totalQueued ∧
    (emitOkIfLow cfg s).lostBytes = s.lostBytes ∧
    (emitOkIfLow cfg s).sentBytes = s.sentBytes ∧
    (emitOkIfLow cfg s).written = s.written ∧
    (emitOkIfLow cfg s).pushed = s.pushed ∧
    (emitOkIfLow cfg s).sink = s.sink ∧
    (emitOkIfLow cfg s).paused = s.paused ∧
    (emitOkIfLow cfg s).timerActive = s.timerActive := by
  unfold emitOkIfLow
  split <;> simp

/-- The state invariant of the controller, maintained by every operation:
the `totalQueued` counter is the exact byte count of the queue; every
pushed byte is written, queued or lost (conservation); while no byte has
been lost, the written bytes followed by the queued bytes are exactly the
pushed bytes in order; and the `high`/`ok` event log strictly alternates,
with the latch recording which event came last. -/
structure CtlInv (s : St) : Prop where
  tq : s.totalQueued = sumLen s.queue
  cons : s.pushed.length = s.written.length + sumLen s.queue + s.lostBytes
  ord : s.lostBytes = 0 → s.pushed = s.written ++ s.queue.flatten
  chain : s.events.Chain' (fun a b => a ≠ b)
  latchT : s.highEmitted = true → s.events.getLast? = some Ev.high
  latchF : s.highEmitted = false →
    s.events.getLast? = none ∨ s.events.getLast? = some Ev.okEv

/-- Appending an event different from the current last event keeps the
event log strictly alternating. -/
theorem chain_append_ne {l : List Ev} {e : Ev}
    (hc : l.Chain' (fun a b => a ≠ b))
    (hl : ∀ x, l.getLast? = some x → x ≠ e) :
    (l ++ [e]).Chain' (fun a b => a ≠ b) := by
  rw [List.chain'_append]
  refine ⟨hc, List.chain'_singleton e, ?_⟩
  intro x hx y hy
  simp only [List.head?_cons, Option.mem_def, Option.some.injEq] at hy
  subst hy
  exact hl x hx

/-- The latch-clearing check preserves the invariant. -/
theorem emitOkIfLow_inv (cfg : Cfg) (s : St) (h : CtlInv s) : CtlInv (emitOkIfLow cfg s) := by
  unfold emitOkIfLow
  split
  case isTrue hcond =>
    refine ⟨h.tq, h.cons, h.ord, ?_, ?_, ?_⟩
    · exact chain_append_ne h.chain (by
        intro x hx
        have := h.latchT hcond.1
        rw [this] at hx
        cases hx
        simp)
    · intro hT
      simp at hT
    · intro _
      right
      simp
  case isFalse => exact h

/-- The drain loop preserves the invariant. -/
theorem drainLoop_inv (cfg : Cfg) (oracle : Nat → WRes) (fuel btt : Nat) (s : St)
    (h : CtlInv s) : CtlInv (drainLoop cfg oracle fuel btt s) := by
  obtain ⟨hp, hl, hev, hhi, -, -, hwf, hwlen, htq⟩ := drainLoop_spec cfg oracle fuel btt s
  refine ⟨htq h.tq, ?_, ?_, ?_, ?_, ?_⟩
  · rw [hp, hl]
    have := h.cons
    omega
  · intro h0
    rw [hp, hl] at *
    rw [h.ord (by omega), ← hwf]
  · rw [hev]; exact h.chain
  · rw [hhi, hev]; exact h.latchT
  · rw [hhi, hev]; exact h.latchF

/-- `_tryDrain` preserves the invariant. -/
theorem tryDrain_inv (cfg : Cfg) (oracle : Nat → WRes) (s : St) (h : CtlInv s) :
    CtlInv (tryDrain cfg oracle s) := by
  unfold tryDrain
  rcases hs : s.sink with _ | sid
  · exact h
  · rcases hq : s.queue with _ | ⟨buf, rest⟩
    · exact emitOkIfLow_inv cfg s h
    · simp only [hq]
      exact emitOkIfLow_inv cfg _ (drainLoop_inv cfg oracle ((buf :: rest).length + 1) 0 s h)

/-- `_tryDrain` never changes the pushed log, the loss counter, the sink
or the timer, whatever the sink's write outcomes. -/
theorem tryDrain_ghost (cfg : Cfg) (oracle : Nat → WRes) (s : St) :
    (tryDrain cfg oracle s).pushed = s.pushed ∧
    (tryDrain cfg oracle s).lostBytes = s.lostBytes ∧
    (tryDrain cfg oracle s).sink = s.sink ∧
    (tryDrain cfg oracle s).timerActive = s.timerActive := by
  obtain ⟨sk, q, tq, lost, sent, pa, he, ta, wi, pu, wr, ev⟩ := s
  rcases sk with _ | sid
  · exact ⟨rfl, rfl, rfl, rfl⟩
  · rcases q with _ | ⟨buf, rest⟩
    · obtain ⟨-, -, hlost, -, -, hpush, hsink, -, htimer⟩ := emitOkIfLow_fields cfg _
      exact ⟨hpush, hlost, hsink, htimer⟩
    · obtain ⟨hp, hl, -, -, hsk, htm, -, -, -⟩ :=
        drainLoop_spec cfg oracle ((buf :: rest).length + 1) 0 _
      obtain ⟨-, -, hlost, -, -, hpush, hsink, -, htimer⟩ :=
        emitOkIfLow_fields cfg _
      exact ⟨hpush.trans hp, hlost.trans hl, hsink.trans hsk, htimer.trans htm⟩

/-- The slow path of `push` establishes the invariant, provided the
pushed log already contains the new bytes and the state satisfied the
invariant before the bytes were pushed. -/
theorem pushSlow_inv (cfg : Cfg) (oracle : Nat → WRes) (bytes : Chunk) (t : St)
    (htq : t.totalQueued = sumLen t.queue)
    (hcons : t.pushed.length = t.written.length + (sumLen t.queue + bytes.length) + t.lostBytes)
    (hord : t.lostBytes = 0 → t.pushed = t.written ++ (t.queue.flatten ++ bytes))
    (hchain : t.events.Chain' (fun a b => a ≠ b))
    (hlatchT : t.highEmitted = true → t.events.getLast? = some Ev.high)
    (hlatchF : t.highEmitted = false →
      t.events.getLast? = none ∨ t.events.getLast? = some Ev.okEv) :
    CtlInv (pushSlow cfg oracle bytes t) := by
  have hq1 : t.totalQueued + bytes.length = sumLen (t.queue ++ [bytes]) := by
    simp [htq]
  obtain ⟨e1, e2, e3, e4⟩ :=
    evictLoop_spec cfg (t.queue ++ [bytes]) (t.totalQueued + bytes.length) t.lostBytes hq1
  unfold pushSlow
  apply tryDrain_inv
  split
  case isTrue hcond =>
    refine ⟨by simpa using e1, ?_, ?_, ?_, ?_, ?_⟩
    · simp only
      omega
    · intro h0
      simp only at h0 ⊢
      have hl0 : t.lostBytes = 0 := by omega
      have hfl := e4 (by omega)
      rw [hord hl0, hfl]
      simp
    · simp only
      exact chain_append_ne hchain (by
        intro x hx
        rcases hlatchF (by simpa using hcond.2) with hnone | hok
        · rw [hnone] at hx; cases hx
        · rw [hok] at hx
          cases hx
          simp)
    · intro _
      simp
    · intro hF
      simp at hF
  case isFalse hcond =>
    refine ⟨by simpa using e1, ?_, ?_, ?_, ?_, ?_⟩
    · simp only
      omega
    · intro h0
      simp only at h0 ⊢
      have hl0 : t.lostBytes = 0 := by omega
      have hfl := e4 (by omega)
      rw [hord hl0, hfl]
      simp
    · exact hchain
    · exact hlatchT
    · exact hlatchF

/-- `push` preserves the invariant. -/
theorem pushOp_inv (cfg : Cfg) (oracle : Nat → WRes) (v : JsVal) (s : St)
    (h : CtlInv s) : CtlInv (pushOp cfg oracle v s) := by
  cases v with
  | nullv => exact h
  | undef => exact h
  | other => exact h
  | buffer bytes =>
    simp only [pushOp, toBuffer]
    split
    next hfast =>
      rcases horc : oracle s.writeIdx with _ | _ | _
      · refine ⟨h.tq, ?_, ?_, h.chain, h.latchT, h.latchF⟩
        · have := h.cons
          simp only [List.length_append]
          omega
        · intro h0
          simp only at h0 ⊢
          rw [h.ord h0, hfast.1]
          simp
      · refine ⟨h.tq, ?_, ?_, h.chain, h.latchT, h.latchF⟩
        · have := h.cons
          simp only [List.length_append]
          omega
        · intro h0
          simp only at h0 ⊢
          rw [h.ord h0, hfast.1]
          simp
      · apply pushSlow_inv
        · exact h.tq
        · have := h.cons
          simp only [List.length_append]
          omega
        · intro h0
          simp only at h0 ⊢
          rw [h.ord h0, List.append_assoc]
        · exact h.chain
        · exact h.latchT
        · exact h.latchF
    next hfast =>
      apply pushSlow_inv
      · exact h.tq
      · have := h.cons
        simp only [List.length_append]
        omega
      · intro h0
        simp only at h0 ⊢
        rw [h.ord h0, List.append_assoc]
      · exact h.chain
      · exact h.latchT
      · exact h.latchF

/-- Every operation preserves the invariant. -/
theorem step_inv (cfg : Cfg) (oracle : Nat → WRes) (op : Op) (s : St)
    (h : CtlInv s) : CtlInv (step cfg oracle op s) := by
  cases op with
  | push v => exact pushOp_inv cfg oracle v s h
  | tick =>
    simp only [step, tickOp]
    split
    · exact tryDrain_inv cfg oracle s h
    · exact h
  | drainEvt =>
    exact tryDrain_inv cfg oracle _ ⟨h.tq, h.cons, h.ord, h.chain, h.latchT, h.latchF⟩
  | attach sk => exact ⟨h.tq, h.cons, h.ord, h.chain, h.latchT, h.latchF⟩
  | stop => exact ⟨h.tq, h.cons, h.ord, h.chain, h.latchT, h.latchF⟩

/-- The freshly constructed controller satisfies the invariant. -/
theorem init_inv : CtlInv St.init := by
  refine ⟨rfl, rfl, fun _ => rfl, List.chain'_nil, ?_, ?_⟩
  · intro hT
    cases hT
  · intro _
    left
    rfl

/-- The invariant holds after any sequence of operations. -/
theorem run_inv (cfg : Cfg) (oracle : Nat → WRes) :
    ∀ (ops : List Op) (s : St), CtlInv s → CtlInv (run cfg oracle ops s) := by
  intro ops
  induction ops with
  | nil => intro s h; exact h
  | cons op rest ih =>
    intro s h
    exact ih (step cfg oracle op s) (step_inv cfg oracle op s h)

/-- The slow path never decreases `lostBytes`. -/
theorem pushSlow_lost_mono (cfg : Cfg) (oracle : Nat → WRes) (bytes : Chunk) (t : St) :
    t.lostBytes ≤ (pushSlow cfg oracle bytes t).lostBytes := by
  simp only [pushSlow]
  rw [(tryDrain_ghost cfg oracle _).2.1]
  split
  · exact evictLoop_lost_mono cfg _ _ _
  · exact evictLoop_lost_mono cfg _ _ _

/-- `push` never decreases `lostBytes`. -/
theorem pushOp_lost_mono (cfg : Cfg) (oracle : Nat → WRes) (v : JsVal) (s : St) :
    s.lostBytes ≤ (pushOp cfg oracle v s).lostBytes := by
  cases v with
  | nullv => exact le_refl _
  | undef => exact le_refl _
  | other => exact le_refl _
  | buffer bytes =>
    simp only [pushOp, toBuffer]
    split
    next hfast =>
      rcases horc : oracle s.writeIdx with _ | _ | _
      · exact le_refl _
      · exact le_refl _
      · exact pushSlow_lost_mono cfg oracle bytes
          { s with writeIdx := s.writeIdx + 1, pushed := s.pushed ++ bytes }
    next hfast =>
      exact pushSlow_lost_mono cfg oracle bytes { s with pushed := s.pushed ++ bytes }

/-- No operation ever decreases `lostBytes`. -/
theorem step_lost_mono (cfg : Cfg) (oracle : Nat → WRes) (op : Op) (s : St) :
    s.lostBytes ≤ (step cfg oracle op s).lostBytes := by
  cases op with
  | push v => exact pushOp_lost_mono cfg oracle v s
  | tick =>
    simp only [step, tickOp]
    split
    · rw [(tryDrain_ghost cfg oracle s).2.1]
    · exact le_refl _
  | drainEvt =>
    simp only [step, onDrain]
    rw [(tryDrain_ghost cfg oracle _).2.1]
  | attach sk => exact le_refl _
  | stop => exact le_refl _

/-- `lostBytes` is monotone along any run. -/
theorem run_lost_mono (cfg : Cfg) (oracle : Nat → WRes) :
    ∀ (ops : List Op) (s : St), s.lostBytes ≤ (run cfg oracle ops s).lostBytes := by
  intro ops
  induction ops with
  | nil => intro s; exact le_refl _
  | cons op rest ih =>
    intro s
    exact le_trans (step_lost_mono cfg oracle op s) (ih (step cfg oracle op s))

/-- Splitting a run of operations at any point. -/
theorem run_append (cfg : Cfg) (oracle : Nat → WRes) (ops more : List Op) (s : St) :
    run cfg oracle (ops ++ more) s = run cfg oracle more (run cfg oracle ops s) := by
  simp [run, List.foldl_append]

/-- A sink whose `write` always succeeds and returns `true`. -/
def alwaysOk : Nat → WRes := fun _ => WRes.ok

/-- A sink whose `write` always throws. -/
def alwaysErr : Nat → WRes := fun _ => WRes.err

/-- C1: for every sequence of operations in which no byte is ever lost to
overflow eviction, the bytes pushed are exactly the bytes written to the
sink followed by the bytes still queued — hence the written byte stream
is a prefix of the pushed byte stream at every intermediate point (each
such point is the final state of a prefix of the operation list), and
once the queue is empty the written bytes equal the pushed bytes.  This
covers the fast path, the batched drain loop and chunk splits. -/
theorem c1_no_reorder (cfg : Cfg) (oracle : Nat → WRes) (ops : List Op)
    (hnoloss : (run cfg oracle ops St.init).lostBytes = 0) :
    (run cfg oracle ops St.init).pushed
      = (run cfg oracle ops St.init).written ++ (run cfg oracle ops St.init).queue.flatten ∧
    (∃ rest, (run cfg oracle ops St.init).written ++ rest = (run cfg oracle ops St.init).pushed) ∧
    ((run cfg oracle ops St.init).queue.flatten = [] →
      (run cfg oracle ops St.init).written = (run cfg oracle ops St.init).pushed) := by
  have hinv := run_inv cfg oracle ops St.init init_inv
  have hord := hinv.ord hnoloss
  refine ⟨hord, ⟨_, hord.symm⟩, ?_⟩
  intro hempty
  rw [hord, hempty, List.append_nil]

/-- C1 witness: a concrete lossless run (attach a sink, push two chunks)
in which the written bytes equal the pushed bytes. -/
theorem c1_no_reorder_witness :
    (run Cfg.default alwaysOk
        [Op.attach (some 0), Op.push (.buffer [1, 2, 3]), Op.push (.buffer [4, 5])]
        St.init).lostBytes = 0 ∧
    (run Cfg.default alwaysOk
        [Op.attach (some 0), Op.push (.buffer [1, 2, 3]), Op.push (.buffer [4, 5])]
        St.init).pushed
      = (run Cfg.default alwaysOk
          [Op.attach (some 0), Op.push (.buffer [1, 2, 3]), Op.push (.buffer [4, 5])]
          St.init).written
        ++ (run Cfg.default alwaysOk
            [Op.attach (some 0), Op.push (.buffer [1, 2, 3]), Op.push (.buffer [4, 5])]
            St.init).queue.flatten :=
  ⟨by decide,
   (c1_no_reorder Cfg.default alwaysOk
      [Op.attach (some 0), Op.push (.buffer [1, 2, 3]), Op.push (.buffer [4, 5])]
      (by decide)).1⟩

/-- C4: in every execution the emitted flow-control events strictly
alternate (no two adjacent events are equal), and the latch records the
last event: when `_highEmitted` is set the last event was `high`; when it
is clear no event was emitted yet or the last one was `ok`. -/
theorem c4_event_alternation (cfg : Cfg) (oracle : Nat → WRes) (ops : List Op) :
    (run cfg oracle ops St.init).events.Chain' (fun a b => a ≠ b) ∧
    ((run cfg oracle ops St.init).highEmitted = true →
      (run cfg oracle ops St.init).events.getLast? = some Ev.high) ∧
    ((run cfg oracle ops St.init).highEmitted = false →
      (run cfg oracle ops St.init).events.getLast? = none ∨
      (run cfg oracle ops St.init).events.getLast? = some Ev.okEv) := by
  have hinv := run_inv cfg oracle ops St.init init_inv
  exact ⟨hinv.chain, hinv.latchT, hinv.latchF⟩

/-- C4 witness: a run that actually trips the latch — pushing 60 bytes
against a 100-byte buffer with a 50-byte high watermark and no sink
emits `high`, and the latch points at it. -/
theorem c4_event_alternation_witness :
    (run { maxBufferBytes := 100, highWaterBytes := 50, resumeWaterBytes := 10, batchBytes := 100 }
        alwaysOk [Op.push (.buffer (List.replicate 60 7))] St.init).highEmitted = true ∧
    (run { maxBufferBytes := 100, highWaterBytes := 50, resumeWaterBytes := 10, batchBytes := 100 }
        alwaysOk [Op.push (.buffer (List.replicate 60 7))] St.init).events.getLast?
      = some Ev.high :=
  ⟨by decide,
   (c4_event_alternation
      { maxBufferBytes := 100, highWaterBytes := 50, resumeWaterBytes := 10, batchBytes := 100 }
      alwaysOk [Op.push (.buffer (List.replicate 60 7))]).2.1 (by decide)⟩

/-- C6: after any sequence of complete operations from the initial state,
`totalQueued` equals the sum of the lengths of the queued chunks, and
every further operation — push with eviction, drain with head-chunk
splitting, attach, stop — preserves that equality. -/
theorem c6_counter_accurate (cfg : Cfg) (oracle : Nat → WRes) (ops : List Op) (op : Op) :
    (run cfg oracle ops St.init).totalQueued = sumLen (run cfg oracle ops St.init).queue ∧
    (step cfg oracle op (run cfg oracle ops St.init)).totalQueued
      = sumLen (step cfg oracle op (run cfg oracle ops St.init)).queue := by
  have hinv := run_inv cfg oracle ops St.init init_inv
  exact ⟨hinv.tq, (step_inv cfg oracle op _ hinv).tq⟩

/-- C8: `attachStream` changes only which sink is attached; the queue,
all counters, and the flow-control latch are untouched, for every state
and every new sink. -/
theorem c8_attach_frame (s : St) (sk : Option Nat) :
    (attachStream sk s).sink = sk ∧
    (attachStream sk s).queue = s.queue ∧
    (attachStream sk s).totalQueued = s.totalQueued ∧
    (attachStream sk s).lostBytes = s.lostBytes ∧
    (attachStream sk s).sentBytes = s.sentBytes ∧
    (attachStream sk s).highEmitted = s.highEmitted ∧
    (attachStream sk s).paused = s.paused ∧
    (attachStream sk s).written = s.written ∧
    (attachStream sk s).pushed = s.pushed ∧
    (attachStream sk s).events = s.events :=
  ⟨rfl, rfl, rfl, rfl, rfl, rfl, rfl, rfl, rfl, rfl⟩

/-- C9: `lostBytes` never decreases across any sequence of operations,
and at every point it accounts exactly for the evicted bytes: the bytes
pushed so far are the bytes written plus the bytes still queued plus the
bytes lost. -/
theorem c9_lost_monotone (cfg : Cfg) (oracle : Nat → WRes) (ops more : List Op) :
    (run cfg oracle ops St.init).lostBytes ≤ (run cfg oracle (ops ++ more) St.init).lostBytes ∧
    (run cfg oracle ops St.init).pushed.length
      = (run cfg oracle ops St.init).written.length
        + (run cfg oracle ops St.init).totalQueued
        + (run cfg oracle ops St.init).lostBytes := by
  constructor
  · rw [run_append]
    exact run_lost_mono cfg oracle more _
  · have hinv := run_inv cfg oracle ops St.init init_inv
    rw [hinv.tq]
    exact hinv.cons

/-- C10: `push` ignores `null`, `undefined` and non-Buffer arguments
entirely — the state is unchanged, nothing is written — while an empty
Buffer passes the `Buffer.isBuffer` guard (pushing it to a fresh
controller with no sink enqueues the empty chunk). -/
theorem c10_push_guard (cfg : Cfg) (oracle : Nat → WRes) (s : St) :
    pushOp cfg oracle JsVal.nullv s = s ∧
    pushOp cfg oracle JsVal.undef s = s ∧
    pushOp cfg oracle JsVal.other s = s ∧
    (pushOp cfg oracle (JsVal.buffer []) St.init).queue = [[]] := by
  refine ⟨rfl, rfl, rfl, ?_⟩
  simp only [pushOp, toBuffer, pushSlow, evictLoop, St.init]
  split
  · next h => simp at h
  · split
    · next h => simp at h
    · split <;> simp [tryDrain]

/-- With a sink whose writes always throw, the drain loop breaks on its
first write and `_tryDrain` leaves the queue and every byte counter
untouched (only the latch check may still fire). -/
theorem tryDrain_err_frame (cfg : Cfg) (t : St) :
    (tryDrain cfg alwaysErr t).queue = t.queue ∧
    (tryDrain cfg alwaysErr t).totalQueued = t.totalQueued ∧
    (tryDrain cfg alwaysErr t).sentBytes = t.sentBytes ∧
    (tryDrain cfg alwaysErr t).lostBytes = t.lostBytes ∧
    (tryDrain cfg alwaysErr t).written = t.written := by
  obtain ⟨sk, q, tq, lost, sent, pa, he, ta, wi, pu, wr, ev⟩ := t
  rcases sk with _ | sid
  · exact ⟨rfl, rfl, rfl, rfl, rfl⟩
  · rcases q with _ | ⟨buf, rest⟩
    · simp [tryDrain, emitOkIfLow]
      split <;> simp
    · by_cases hb : 0 < cfg.batchBytes <;>
        simp [tryDrain, drainLoop, alwaysErr, hb, emitOkIfLow] <;> split <;> simp

/-- C7: a sink write that throws loses no data.  On the `push` fast path
the thrown write makes the chunk fall through to the queue (nothing
recorded as written or sent, nothing lost, no error escapes to the
caller), and a throwing drain tick leaves the chunk at the front of the
queue with `totalQueued`, `sentBytes` and `lostBytes` unchanged, so it
is retried on the next tick. -/
theorem c7_write_error_retry (cfg : Cfg) (s : St) (bytes : Chunk)
    (hq : s.queue = []) (hsink : s.sink.isSome = true) (hp : s.paused = false)
    (hroom : ¬ cfg.maxBufferBytes < s.totalQueued + bytes.length) :
    ((pushOp cfg alwaysErr (JsVal.buffer bytes) s).queue = [bytes] ∧
     (pushOp cfg alwaysErr (JsVal.buffer bytes) s).written = s.written ∧
     (pushOp cfg alwaysErr (JsVal.buffer bytes) s).sentBytes = s.sentBytes ∧
     (pushOp cfg alwaysErr (JsVal.buffer bytes) s).lostBytes = s.lostBytes) ∧
    (∀ t : St,
      (tryDrain cfg alwaysErr t).queue = t.queue ∧
      (tryDrain cfg alwaysErr t).totalQueued = t.totalQueued ∧
      (tryDrain cfg alwaysErr t).sentBytes = t.sentBytes ∧
      (tryDrain cfg alwaysErr t).lostBytes = t.lostBytes ∧
      (tryDrain cfg alwaysErr t).written = t.written) := by
  refine ⟨?_, fun t => tryDrain_err_frame cfg t⟩
  simp only [pushOp, toBuffer, alwaysErr]
  rw [if_pos ⟨hq, hsink, hp⟩]
  simp only [pushSlow, hq, List.nil_append]
  have hev : evictLoop cfg [bytes] (s.totalQueued + bytes.length) s.lostBytes
      = ([bytes], s.totalQueued + bytes.length, s.lostBytes) := by
    simp [evictLoop, hroom]
  rw [hev]
  have hfr := tryDrain_err_frame cfg
  split
  · next hcond =>
    obtain ⟨f1, f2, f3, f4, f5⟩ := hfr _
    exact ⟨f1, f5, f3, f4⟩
  · next hcond =>
    obtain ⟨f1, f2, f3, f4, f5⟩ := hfr _
    exact ⟨f1, f5, f3, f4⟩

/-- C7 witness: a concrete state (fresh controller with a sink attached)
and chunk on which the fast-path throw queues the chunk unchanged. -/
theorem c7_write_error_retry_witness :
    ((attachStream (some 0) St.init).queue = [] ∧
      (attachStream (some 0) St.init).sink.isSome = true ∧
      (attachStream (some 0) St.init).paused = false ∧
      ¬ Cfg.default.maxBufferBytes
          < (attachStream (some 0) St.init).totalQueued + ([1, 2] : Chunk).length) ∧
    (pushOp Cfg.default alwaysErr (JsVal.buffer [1, 2]) (attachStream (some 0) St.init)).queue
      = [[1, 2]] :=
  ⟨⟨by decide, by decide, by decide, by decide⟩,
   (c7_write_error_retry Cfg.default (attachStream (some 0) St.init) [1, 2]
      (by decide) (by decide) (by decide) (by decide)).1.1⟩

/-- Pushing a single chunk larger than the whole buffer capacity into a
fresh controller with no sink evicts the entire chunk: the queue ends
empty, every byte is counted lost, and no `high` event fires (the
watermark check runs only after eviction). -/
theorem single_chunk_overflow (n : Nat) (h : 64000 < n) :
    (run Cfg.default alwaysOk [Op.push (JsVal.buffer (List.replicate n 0))] St.init).lostBytes
      = n ∧
    (run Cfg.default alwaysOk [Op.push (JsVal.buffer (List.replicate n 0))] St.init).queue
      = [] ∧
    (run Cfg.default alwaysOk [Op.push (JsVal.buffer (List.replicate n 0))] St.init).events
      = [] := by
  simp [run, step, pushOp, toBuffer, pushSlow, evictLoop, tryDrain, Cfg.default, St.init, h,
    -List.reduceReplicate]

/-- C3 counterexample: chunks totalling 70000 bytes do not always leave
64000 bytes queued and 6000 bytes lost — a single 70000-byte chunk is
evicted whole, leaving an empty queue, `lostBytes = 70000`, and no
`high` event at all. -/
theorem c3_overflow_counterexample :
    (run Cfg.default alwaysOk [Op.push (JsVal.buffer (List.replicate 70000 0))] St.init).lostBytes
      = 70000 ∧
    (run Cfg.default alwaysOk [Op.push (JsVal.buffer (List.replicate 70000 0))] St.init).queue
      = [] ∧
    (run Cfg.default alwaysOk [Op.push (JsVal.buffer (List.replicate 70000 0))] St.init).events
      = [] :=
  single_chunk_overflow 70000 (by norm_num)

/-- C3 amended: with the default watermarks and no sink, pushing 35
chunks of 2000 bytes each (70000 bytes in all, chunk `i` filled with the
value `i`) leaves the queue holding exactly the most recent 64000 pushed
bytes — chunks 3 through 34 — with `lostBytes = 6000` and the `high`
event emitted exactly once. -/
theorem c3_overflow_scenario :
    (run Cfg.default alwaysOk
        ((List.range 35).map (fun i => Op.push (JsVal.buffer (List.replicate 2000 i))))
        St.init).lostBytes = 6000 ∧
    (run Cfg.default alwaysOk
        ((List.range 35).map (fun i => Op.push (JsVal.buffer (List.replicate 2000 i))))
        St.init).totalQueued = 64000 ∧
    (run Cfg.default alwaysOk
        ((List.range 35).map (fun i => Op.push (JsVal.buffer (List.replicate 2000 i))))
        St.init).queue
      = ((List.range 35).drop 3).map (fun i => List.replicate 2000 i) ∧
    (run Cfg.default alwaysOk
        ((List.range 35).map (fun i => Op.push (JsVal.buffer (List.replicate 2000 i))))
        St.init).events = [Ev.high] := by
  simp [run, step, pushOp, toBuffer, pushSlow, evictLoop, tryDrain, emitOkIfLow,
    Cfg.default, St.init, List.range_succ, -List.reduceReplicate]

/-- After `k` failure-triggered reconnects from a fresh session, the
attempt counter reads exactly `k`. -/
theorem iterate_reconnects (k : Nat) :
    ((fun s => (recReconnect s).1)^[k] RecSt.started).reconnects = k := by
  induction k with
  | zero => rfl
  | succ k ih =>
    rw [Function.iterate_succ_apply']
    exact congrArg (fun n => n + 1) ih

/-- C5: the delay scheduled by the `k`-th consecutive failure-triggered
reconnect (counting from 0) is `min(15000, 1000 * 2^k)` ms — concretely
1000, 2000, 4000, 8000, 15000, 15000, … with the cap reached from the
fifth attempt on — the attempt counter is incremented by every
reconnect, and `start()` never resets it. -/
theorem c5_backoff_policy :
    (∀ k, (kthReconnect k).2 = min 15000 (1000 * 2 ^ k)) ∧
    (List.range 6).map (fun k => (kthReconnect k).2)
      = [1000, 2000, 4000, 8000, 15000, 15000] ∧
    (∀ k, 4 ≤ k → (kthReconnect k).2 = 15000) ∧
    (∀ s : RecSt, ((recReconnect s).1).reconnects = s.reconnects + 1) ∧
    (∀ s : RecSt, (recStart s).reconnects = s.reconnects) := by
  have hk : ∀ k, (kthReconnect k).2 = min 15000 (1000 * 2 ^ k) := by
    intro k
    have h1 : (kthReconnect k).2
        = reconnectDelay (((fun s => (recReconnect s).1)^[k] RecSt.started).reconnects) := rfl
    rw [h1, iterate_reconnects k]
    rfl
  refine ⟨hk, ?_, ?_, fun s => rfl, fun s => rfl⟩
  · simp [hk, List.range_succ]
  · intro k hk4
    rw [hk k]
    refine min_eq_left ?_
    calc (15000 : Nat) ≤ 1000 * 2 ^ 4 := by norm_num
      _ ≤ 1000 * 2 ^ k :=
        Nat.mul_le_mul_left 1000 (Nat.pow_le_pow_right (by norm_num) hk4)

/-- C5 witness: the sixth consecutive reconnect (k = 6) is capped at
15000 ms. -/
theorem c5_backoff_policy_witness : 4 ≤ 6 ∧ (kthReconnect 6).2 = 15000 :=
  ⟨by norm_num, c5_backoff_policy.2.2.1 6 (by norm_num)⟩

/-- C2: the code does not implement the claimed guard.  Starting from a
running session, a failure triggers `reconnect()` (scheduling a delayed
`start()`); calling `stop()` during the wait leaves that timer pending
(`stop()` sets no guard flag and cancels no timer), and when the timer
fires, `start()` runs unconditionally — the session is running again
after `stop()`, contradicting the claim that no restart can occur. -/
theorem c2_stop_does_not_prevent_restart :
    (recStop (recReconnect RecSt.started).1).pendingStarts = 1 ∧
    (recTimerFire (recStop (recReconnect RecSt.started).1)).running = true := by
  decide
